import Mathlib

/-!
Verification of the concurrent wallet-evaluation engine of the
`solana_orchestrator` repository.  The engine exists in two near-identical
source variants: `core/playwright_scanner.py` ("scanner") and
`core/playwright_multi_page_analyzer.py` ("analyzer").  Each Lean definition
below embeds one function of the Python source; the source file and function
are named in the doc comment.  External effects (the rendered page, the
regex matchers, the browser) enter the model as explicit inputs.
-/

set_option maxHeartbeats 1000000
set_option linter.unusedSectionVars false

namespace WalletEngine

variable {α : Type*} [DecidableEq α]

/-! ## Work distribution (round robin)

`playwright_scanner.py`, `PlaywrightWalletScanner.distribute_wallets`
(lines 162-173) builds `num_pages` empty chunks and appends the wallet at
enumeration index `idx` to chunk `idx % num_pages`.
`playwright_multi_page_analyzer.py`,
`PlaywrightMultiPageAnalyzer._distribute_wallets` (lines 351-370) first
returns `[]` on an empty wallet list, reduces the page count to
`min num_pages wallets.length`, and then runs the same loop. -/

/-- One iteration of the distribution loop: `chunks[idx % num_pages].append(wallet)`. -/
def rrStep (n : Nat) (chunks : List (List α)) (p : Nat × α) : List (List α) :=
  chunks.set (p.1 % n) (chunks.getD (p.1 % n) [] ++ [p.2])

/-- `PlaywrightWalletScanner.distribute_wallets`: round robin over
`num_pages` chunks, starting from `num_pages` empty chunks. -/
def distribute_wallets (wallets : List α) (num_pages : Nat) : List (List α) :=
  wallets.enum.foldl (rrStep num_pages) (List.replicate num_pages [])

/-- `PlaywrightMultiPageAnalyzer._distribute_wallets`: empty input gives no
chunks; otherwise the page count is reduced to `min num_pages wallets.length`
and the same round-robin loop runs. -/
def distribute_wallets_analyzer (wallets : List α) (num_pages : Nat) : List (List α) :=
  if wallets.isEmpty then []
  else distribute_wallets wallets (min num_pages wallets.length)

/-- Task creation in both `run` methods: a worker task is created only for a
truthy (non-empty) chunk (`if chunk` in the list comprehensions at
`playwright_scanner.py` lines 428-432 and
`playwright_multi_page_analyzer.py` lines 476-480). -/
def worker_tasks (chunks : List (List α)) : List (List α) :=
  chunks.filter (fun c => !c.isEmpty)

/-- Closed form of one round-robin chunk: the wallets whose enumeration index
is congruent to `j` modulo `n`, in input order. -/
def rrChunk (wallets : List α) (n j : Nat) : List α :=
  (wallets.enum.filter (fun p => decide (p.1 % n = j))).map Prod.snd

theorem getD_set_self {β : Type*} (l : List β) (i : Nat) (a d : β) (h : i < l.length) :
    (l.set i a).getD i d = a := by
  induction l generalizing i with
  | nil => simp at h
  | cons x xs ih =>
    cases i with
    | zero => rfl
    | succ k =>
      show (xs.set k a).getD k d = a
      exact ih k (by simpa using h)

theorem getD_set_ne {β : Type*} (l : List β) (i j : Nat) (a d : β) (h : i ≠ j) :
    (l.set i a).getD j d = l.getD j d := by
  induction l generalizing i j with
  | nil => rfl
  | cons x xs ih =>
    cases i with
    | zero =>
      cases j with
      | zero => exact absurd rfl h
      | succ k => rfl
    | succ m =>
      cases j with
      | zero => rfl
      | succ k =>
        show (xs.set m a).getD k d = xs.getD k d
        exact ih m k (fun hh => h (by rw [hh]))

theorem range_map_getD {β : Type*} (l : List β) (d : β) :
    (List.range l.length).map (fun j => l.getD j d) = l := by
  induction l with
  | nil => rfl
  | cons x xs ih =>
    rw [List.length_cons, List.range_succ_eq_map, List.map_cons, List.map_map]
    have htail : (List.range xs.length).map ((fun j => (x :: xs).getD j d) ∘ Nat.succ)
        = (List.range xs.length).map (fun j => xs.getD j d) := rfl
    rw [htail, ih]
    rfl

theorem getD_replicate_nil {β : Type*} (n j : Nat) :
    (List.replicate n ([] : List β)).getD j [] = [] := by
  induction n generalizing j with
  | zero => rfl
  | succ m ih =>
    cases j with
    | zero => rfl
    | succ k => exact ih k

/-- The round-robin loop, started on any `n` chunks, produces per chunk `j`
the old contents followed by the wallets whose index is `j` modulo `n`. -/
theorem enumFrom_foldl_rrStep (n : Nat) (hn : 0 < n) (ws : List α) :
    ∀ (s : Nat) (C : List (List α)), C.length = n →
      (List.enumFrom s ws).foldl (rrStep n) C
        = (List.range n).map
            (fun j => C.getD j [] ++
              ((List.enumFrom s ws).filter (fun p => decide (p.1 % n = j))).map Prod.snd) := by
  induction ws with
  | nil =>
    intro s C hC
    simp only [List.enumFrom, List.foldl_nil, List.filter_nil, List.map_nil, List.append_nil]
    rw [← hC]
    exact (range_map_getD C []).symm
  | cons w ws ih =>
    intro s C hC
    have hlt : s % n < C.length := by rw [hC]; exact Nat.mod_lt _ hn
    have hC' : (rrStep n C (s, w)).length = n := by
      simp [rrStep, hC]
    have hstep : List.enumFrom s (w :: ws) = (s, w) :: List.enumFrom (s + 1) ws := rfl
    rw [hstep, List.foldl_cons, ih (s + 1) _ hC']
    apply List.map_congr_left
    intro j hj
    rw [List.mem_range] at hj
    rw [List.filter_cons]
    by_cases hje : s % n = j
    · have hdec : (decide ((s, w).1 % n = j)) = true := by simp [hje]
      rw [hdec]
      simp only [List.map_cons, rrStep]
      rw [← hje, getD_set_self _ _ _ _ hlt]
      simp [List.append_assoc]
    · have hdec : (decide ((s, w).1 % n = j)) = false := by simp [hje]
      rw [hdec]
      simp only [rrStep]
      rw [getD_set_ne _ _ _ _ _ hje]
      simp

/-- `distribute_wallets` equals the closed-form chunk description. -/
theorem distribute_wallets_eq (W : List α) (n : Nat) (hn : 0 < n) :
    distribute_wallets W n = (List.range n).map (rrChunk W n) := by
  unfold distribute_wallets rrChunk
  rw [show W.enum = List.enumFrom 0 W from rfl,
    enumFrom_foldl_rrStep n hn W 0 _ (List.length_replicate _ _)]
  apply List.map_congr_left
  intro j _
  rw [getD_replicate_nil]
  rfl

theorem rrChunk_mem {W : List α} {n j : Nat} {x : α} :
    x ∈ rrChunk W n j ↔ ∃ i, ∃ h : i < W.length, i % n = j ∧ W[i] = x := by
  unfold rrChunk
  constructor
  · intro hx
    rcases List.mem_map.mp hx with ⟨p, hp, hpx⟩
    rcases List.mem_filter.mp hp with ⟨hpe, hpq⟩
    rcases List.mem_iff_getElem.mp hpe with ⟨i, hi, hgi⟩
    have hiW : i < W.length := by simpa using hi
    have hpval : p = (i, W[i]) := by
      rw [← hgi]
      simp
    refine ⟨i, hiW, ?_, ?_⟩
    · have := hpq
      rw [hpval] at this
      simpa using this
    · rw [hpval] at hpx
      exact hpx
  · rintro ⟨i, hi, hmod, hxi⟩
    apply List.mem_map.mpr
    refine ⟨(i, W[i]), List.mem_filter.mpr ⟨?_, by simpa using hmod⟩, hxi⟩
    apply List.mem_iff_getElem.mpr
    exact ⟨i, by simpa using hi, by simp⟩

theorem filter_enumFrom_map_snd_sublist (q : Nat → Bool) (l : List α) :
    ∀ s : Nat, List.Sublist (((List.enumFrom s l).filter (fun p => q p.1)).map Prod.snd) l := by
  induction l with
  | nil => intro s; simp
  | cons a l ih =>
    intro s
    show List.Sublist ((((s, a) :: List.enumFrom (s + 1) l).filter (fun p => q p.1)).map Prod.snd)
      (a :: l)
    rw [List.filter_cons]
    cases hq : q s with
    | true => simpa using (ih (s + 1)).cons₂ a
    | false => simpa using (ih (s + 1)).cons a

theorem rrChunk_sublist (W : List α) (n j : Nat) : List.Sublist (rrChunk W n j) W :=
  filter_enumFrom_map_snd_sublist (fun i => decide (i % n = j)) W 0

/-- Chunks with distinct residues are disjoint when the input has no duplicates. -/
theorem rrChunk_disjoint {W : List α} (hnd : W.Nodup) {n j1 j2 : Nat} (hne : j1 ≠ j2) :
    ∀ x, x ∈ rrChunk W n j1 → x ∉ rrChunk W n j2 := by
  intro x h1 h2
  rcases rrChunk_mem.mp h1 with ⟨i1, hi1, hm1, hx1⟩
  rcases rrChunk_mem.mp h2 with ⟨i2, hi2, hm2, hx2⟩
  have heq : W[i1] = W[i2] := by rw [hx1, hx2]
  have hii : i1 = i2 := by
    by_contra hii
    exact (List.Nodup.getElem_inj_iff hnd).mp heq |> hii
  subst hii
  exact hne (hm1 ▸ hm2 ▸ rfl)

theorem distribute_join_mem (W : List α) (n : Nat) (hn : 0 < n) (x : α) :
    x ∈ (distribute_wallets W n).flatten ↔ x ∈ W := by
  rw [distribute_wallets_eq W n hn]
  constructor
  · intro hx
    rcases List.mem_flatten.mp hx with ⟨c, hc, hxc⟩
    rcases List.mem_map.mp hc with ⟨j, _, rfl⟩
    exact (rrChunk_sublist W n j).subset hxc
  · intro hx
    rcases List.mem_iff_getElem.mp hx with ⟨i, hi, rfl⟩
    apply List.mem_flatten.mpr
    refine ⟨rrChunk W n (i % n),
      List.mem_map.mpr ⟨i % n, List.mem_range.mpr (Nat.mod_lt _ hn), rfl⟩, ?_⟩
    exact rrChunk_mem.mpr ⟨i, hi, rfl, rfl⟩

theorem map_range_getD {β : Type*} (n : Nat) (f : Nat → β) (k : Nat) (d : β) (hk : k < n) :
    ((List.range n).map f).getD k d = f k := by
  have hk' : k < ((List.range n).map f).length := by simpa using hk
  rw [List.getD_eq_getElem _ _ hk']
  simp

/-- Claim C1: for every candidate wallet list `W` (without duplicates) and
worker count `N` with `0 < N ≤ |W|`, the round-robin distributor produces
exactly `N` shards (identical in both source variants), the shards are
pairwise disjoint, their union equals `W`, the wallet at input index `i` is
placed in shard `i % N`, each shard preserves the relative input order, and
for 2 workers and 5 wallets the shards are `[w0, w2, w4]` and `[w1, w3]`. -/
theorem C1_round_robin_distribution (W : List α) (N : Nat)
    (hN : 0 < N) (hle : N ≤ W.length) (hnd : W.Nodup) :
    (distribute_wallets W N).length = N
    ∧ distribute_wallets_analyzer W N = distribute_wallets W N
    ∧ List.Pairwise (fun c d => ∀ x, x ∈ c → x ∉ d) (distribute_wallets W N)
    ∧ (∀ x, x ∈ (distribute_wallets W N).flatten ↔ x ∈ W)
    ∧ (∀ i, ∀ _ : i < W.length, W[i] ∈ (distribute_wallets W N).getD (i % N) [])
    ∧ (∀ c ∈ distribute_wallets W N, List.Sublist c W)
    ∧ (∀ a b c d e : α, distribute_wallets [a, b, c, d, e] 2 = [[a, c, e], [b, d]]) := by
  have hW : W ≠ [] := by
    intro hW
    rw [hW] at hle
    simp at hle
    omega
  refine ⟨?_, ?_, ?_, ?_, ?_, ?_, ?_⟩
  · rw [distribute_wallets_eq W N hN]; simp
  · unfold distribute_wallets_analyzer
    rw [if_neg (by simpa using hW), Nat.min_eq_left hle]
  · rw [distribute_wallets_eq W N hN, List.pairwise_map]
    have hr : (List.range N).Pairwise (· ≠ ·) := List.nodup_range N
    exact hr.imp (fun hne => rrChunk_disjoint hnd hne)
  · exact distribute_join_mem W N hN
  · intro i hi
    rw [distribute_wallets_eq W N hN, map_range_getD N _ (i % N) [] (Nat.mod_lt _ hN)]
    exact rrChunk_mem.mpr ⟨i, hi, rfl, rfl⟩
  · intro c hc
    rw [distribute_wallets_eq W N hN] at hc
    rcases List.mem_map.mp hc with ⟨j, _, rfl⟩
    exact rrChunk_sublist W N j
  · intro a b c d e
    simp [distribute_wallets, rrStep, List.enum, List.enumFrom]

/-- Witness for C1 at the concrete input `W = [0, 1, 2]`, `N = 2`. -/
theorem C1_round_robin_distribution_witness :
    (0 < 2 ∧ 2 ≤ ([0, 1, 2] : List ℕ).length ∧ ([0, 1, 2] : List ℕ).Nodup)
    ∧ ((distribute_wallets ([0, 1, 2] : List ℕ) 2).length = 2
      ∧ distribute_wallets_analyzer ([0, 1, 2] : List ℕ) 2 = distribute_wallets [0, 1, 2] 2
      ∧ List.Pairwise (fun c d => ∀ x, x ∈ c → x ∉ d) (distribute_wallets ([0, 1, 2] : List ℕ) 2)
      ∧ (∀ x, x ∈ (distribute_wallets ([0, 1, 2] : List ℕ) 2).flatten ↔ x ∈ ([0, 1, 2] : List ℕ))
      ∧ (∀ i, ∀ _ : i < ([0, 1, 2] : List ℕ).length,
          ([0, 1, 2] : List ℕ)[i] ∈ (distribute_wallets ([0, 1, 2] : List ℕ) 2).getD (i % 2) [])
      ∧ (∀ c ∈ distribute_wallets ([0, 1, 2] : List ℕ) 2, List.Sublist c [0, 1, 2])
      ∧ (∀ a b c d e : ℕ, distribute_wallets [a, b, c, d, e] 2 = [[a, c, e], [b, d]])) :=
  ⟨⟨by decide, by decide, by decide⟩,
    C1_round_robin_distribution [0, 1, 2] 2 (by decide) (by decide) (by decide)⟩

theorem countP_range_lt (N m : Nat) (h : m ≤ N) :
    (List.range N).countP (fun j => decide (j < m)) = m := by
  induction N with
  | zero =>
    have hm : m = 0 := Nat.le_zero.mp h
    subst hm; rfl
  | succ k ih =>
    by_cases hm : m = k + 1
    · subst hm
      have hall : ∀ a ∈ List.range (k + 1), (fun j => decide (j < k + 1)) a = true := by
        intro a ha
        simpa using List.mem_range.mp ha
      rw [List.countP_eq_length.mpr hall, List.length_range]
    · have hmk : m ≤ k := by omega
      have hkm : ¬ (k < m) := by omega
      rw [List.range_succ, List.countP_append, ih hmk]
      simp [List.countP_cons, hkm]

theorem rrChunk_empty_iff {W : List α} {N j : Nat} (hWN : W.length < N) :
    rrChunk W N j = [] ↔ W.length ≤ j := by
  constructor
  · intro h
    by_contra hlt
    push_neg at hlt
    have hmem : W[j] ∈ rrChunk W N j :=
      rrChunk_mem.mpr ⟨j, hlt, Nat.mod_eq_of_lt (lt_trans hlt hWN), rfl⟩
    rw [h] at hmem
    exact absurd hmem (List.not_mem_nil _)
  · intro h
    by_contra hne
    rcases List.exists_mem_of_ne_nil _ hne with ⟨x, hx⟩
    rcases rrChunk_mem.mp hx with ⟨i, hi, hm, _⟩
    have him : i % N = i := Nat.mod_eq_of_lt (lt_trans hi hWN)
    omega

/-- Claim C6: for every candidate wallet list `W` and requested worker count
`N > |W|`, the analyzer's distributor reduces the effective worker count to
`|W|` and hands out no empty shard, and in the scanner variant the task
filter creates exactly `|W|` worker tasks, none with an empty shard. -/
theorem C6_effective_workers (W : List α) (N : Nat) (h : W.length < N) :
    (distribute_wallets_analyzer W N).length = W.length
    ∧ (∀ c ∈ distribute_wallets_analyzer W N, c ≠ [])
    ∧ (worker_tasks (distribute_wallets W N)).length = W.length
    ∧ (∀ c ∈ worker_tasks (distribute_wallets W N), c ≠ []) := by
  have hN : 0 < N := by omega
  have hchunk : ∀ j, (!(rrChunk W N j).isEmpty) = decide (j < W.length) := by
    intro j
    rcases Nat.lt_or_ge j W.length with hj | hj
    · have : rrChunk W N j ≠ [] := by
        rw [ne_eq, rrChunk_empty_iff h]
        omega
      simp [List.isEmpty_iff, this, hj]
    · have : rrChunk W N j = [] := (rrChunk_empty_iff h).mpr hj
      simp [this]
      omega
  refine ⟨?_, ?_, ?_, ?_⟩
  · by_cases hW : W = []
    · subst hW; rfl
    · have hWpos : 0 < W.length := List.length_pos.mpr hW
      unfold distribute_wallets_analyzer
      rw [if_neg (by simpa using hW), Nat.min_eq_right (le_of_lt h),
        distribute_wallets_eq W _ hWpos]
      simp
  · intro c hc
    by_cases hW : W = []
    · subst hW
      simp [distribute_wallets_analyzer] at hc
    · have hWpos : 0 < W.length := List.length_pos.mpr hW
      unfold distribute_wallets_analyzer at hc
      rw [if_neg (by simpa using hW), Nat.min_eq_right (le_of_lt h),
        distribute_wallets_eq W _ hWpos] at hc
      rcases List.mem_map.mp hc with ⟨j, hj, rfl⟩
      have hjW : j < W.length := List.mem_range.mp hj
      intro hnil
      have hmem : W[j] ∈ rrChunk W W.length j :=
        rrChunk_mem.mpr ⟨j, hjW, Nat.mod_eq_of_lt hjW, rfl⟩
      rw [hnil] at hmem
      exact absurd hmem (List.not_mem_nil _)
  · rw [distribute_wallets_eq W N hN]
    unfold worker_tasks
    rw [← List.countP_eq_length_filter, List.countP_map]
    have hcong : (List.range N).countP ((fun c => !c.isEmpty) ∘ rrChunk W N)
        = (List.range N).countP (fun j => decide (j < W.length)) := by
      apply List.countP_congr
      intro j _
      show (!(rrChunk W N j).isEmpty) = true ↔ _
      rw [hchunk j]
    rw [hcong]
    exact countP_range_lt N W.length (le_of_lt h)
  · intro c hc
    have := (List.mem_filter.mp hc).2
    intro hnil
    rw [hnil] at this
    simp at this

/-- Witness for C6 at the concrete input `W = [5, 7]`, `N = 3`. -/
theorem C6_effective_workers_witness :
    (([5, 7] : List ℕ).length < 3)
    ∧ ((distribute_wallets_analyzer ([5, 7] : List ℕ) 3).length = ([5, 7] : List ℕ).length
      ∧ (∀ c ∈ distribute_wallets_analyzer ([5, 7] : List ℕ) 3, c ≠ [])
      ∧ (worker_tasks (distribute_wallets ([5, 7] : List ℕ) 3)).length
          = ([5, 7] : List ℕ).length
      ∧ (∀ c ∈ worker_tasks (distribute_wallets ([5, 7] : List ℕ) 3), c ≠ [])) :=
  ⟨by decide, C6_effective_workers [5, 7] 3 (by decide)⟩

/-! ## Metric extraction

The regex matchers themselves are external pattern matching over the
rendered text; each matcher enters the model as its numeric capture
(`none` when the pattern does not match).  The control flow around them is
the code under verification. -/

/-- The win-rate sanity bound `0 <= value <= 100` checked by both variants. -/
def winrate_in_bounds (v : ℚ) : Bool := decide (0 ≤ v) && decide (v ≤ 100)

/-- One pattern matcher guarded by a sanity bound: the captured value is
returned only when the bound accepts it. -/
def tryMatcher (m : Option ℚ) (ok : ℚ → Bool) : Option ℚ :=
  match m with
  | some v => if ok v then some v else none
  | none => none

/-- `PageWorker._extract_winrate` (analyzer, lines 234-256): the primary
pattern is tried first; a match that fails the `[0,100]` bound falls through
to the fallback pattern; `None` only when neither matcher yields an
in-bounds value. -/
def extract_winrate_analyzer (m1 m2 : Option ℚ) : Option ℚ :=
  match tryMatcher m1 winrate_in_bounds with
  | some v => some v
  | none => tryMatcher m2 winrate_in_bounds

/-- `PageWorker._extract_realized_pnl` (analyzer, lines 258-278): primary
then fallback pattern, the first numeric match wins, and no bound is applied
to the captured value. -/
def extract_realized_pnl_analyzer (m1 m2 : Option ℚ) : Option ℚ :=
  match m1 with
  | some v => some v
  | none => m2

/-- `PlaywrightWalletScanner.extract_winrate` (scanner, lines 175-200):
`primary = none` models the selector path raising (locator timeout or float
parse failure), `primary = some m` models the selector text obtained with
regex capture `m`.  On the selector path a missing or out-of-bounds match
returns `None` (line 188) without consulting the fallback; the HTML-regex
fallback runs only when the selector path raised. -/
def extract_winrate_scanner (primary : Option (Option ℚ)) (fallback : Option ℚ) : Option ℚ :=
  match primary with
  | some m => tryMatcher m winrate_in_bounds
  | none => tryMatcher fallback winrate_in_bounds

/-- Claim C7, counterexample: in the scanner variant, when the primary
matcher captures 150 (out of bounds) and the fallback matcher holds the
in-bounds value 50, the extractor returns NotFound — the first numeric match
satisfying the sanity bound is not returned, and NotFound is returned before
all matchers have failed. -/
theorem C7_counterexample :
    extract_winrate_scanner (some (some 150)) (some 50) = none
    ∧ winrate_in_bounds 50 = true := by
  constructor
  · decide
  · decide

/-- Claim C7 amended: every value returned by a win-rate extractor lies in
`[0,100]`; in the analyzer variant matchers are tried in order, an in-bounds
primary match wins, an out-of-bounds primary match falls through to the
fallback, and NotFound arises only when no matcher yields an in-bounds
value; the realized-PnL extractor returns the first matcher's capture with
no bound.  In the scanner variant the fallback matcher is consulted only
when the primary path raises, so a primary match failing the bound yields
NotFound immediately. -/
theorem C7_matcher_order_and_bounds (m1 m2 : Option ℚ) (p : Option (Option ℚ))
    (f : Option ℚ) (v : ℚ) :
    (extract_winrate_analyzer m1 m2).all winrate_in_bounds = true
    ∧ (extract_winrate_scanner p f).all winrate_in_bounds = true
    ∧ extract_winrate_analyzer (some v) m2
        = (if winrate_in_bounds v then some v else extract_winrate_analyzer none m2)
    ∧ (extract_winrate_analyzer m1 m2 = none
        ↔ tryMatcher m1 winrate_in_bounds = none ∧ tryMatcher m2 winrate_in_bounds = none)
    ∧ extract_winrate_scanner (some (some v)) f
        = (if winrate_in_bounds v then some v else none)
    ∧ extract_realized_pnl_analyzer (some v) m2 = some v
    ∧ extract_realized_pnl_analyzer none m2 = m2 := by
  have hall : ∀ m : Option ℚ, (tryMatcher m winrate_in_bounds).all winrate_in_bounds = true := by
    intro m
    cases m with
    | none => rfl
    | some w =>
      unfold tryMatcher
      by_cases hw : winrate_in_bounds w = true
      · simp [hw]
      · simp [hw]
  refine ⟨?_, ?_, ?_, ?_, rfl, rfl, rfl⟩
  · unfold extract_winrate_analyzer
    cases h1 : tryMatcher m1 winrate_in_bounds with
    | some w =>
      have := hall m1
      rw [h1] at this
      simpa using this
    | none => exact hall m2
  · unfold extract_winrate_scanner
    cases p with
    | some m => exact hall m
    | none => exact hall f
  · unfold extract_winrate_analyzer tryMatcher
    by_cases hv : winrate_in_bounds v = true
    · simp [hv]
    · simp [hv]
  · unfold extract_winrate_analyzer
    cases tryMatcher m1 winrate_in_bounds <;> simp

/-! ## Per-wallet evaluation (`analyze_wallet`)

External inputs of one attempt: whether navigation raised, what the render
wait observed, and the numeric results of the two extractors on the
rendered text. -/

/-- The observable result of one render wait: the stats section appeared,
or the wait timed out with the authoritative "no data for this wallet" /
"not a wallet address" marker present in the page text, or it timed out
with no marker (page possibly still loading). -/
inductive RenderResult where
  | statsAppeared : RenderResult
  | timedOutMarker : RenderResult
  | timedOutNoMarker : RenderResult
deriving DecidableEq

/-- `_wait_for_data_with_timeout` (`playwright_scanner.py` lines 302-324,
`playwright_multi_page_analyzer.py` lines 205-232): `True` when the stats
selector appears; on a timeout the page text is checked for the no-data
markers, but both timeout branches return the same bare `False`, so the
marker / no-marker distinction drawn in the source comments never reaches
the caller. -/
def wait_for_data : RenderResult → Bool
  | .statsAppeared => true
  | .timedOutMarker => false
  | .timedOutNoMarker => false

/-- External inputs of a single attempt of `analyze_wallet`. -/
structure Attempt where
  navRaises : Bool
  render : RenderResult
  winrate : Option ℚ
  realizedPnl : Option ℚ
deriving DecidableEq

/-- `PlaywrightWalletScanner.analyze_wallet` (scanner, lines 238-300), with
the attempt inputs listed first-attempt-first.  Returns the passing record's
values (the dict built at lines 282-287) or `None`, together with the number
of attempts consumed.  Navigation errors, failed waits and failed
extractions retry while attempts remain; a below-threshold wallet returns
`None` with no retry. -/
def analyze_wallet_scanner (min_winrate min_pnl : ℚ) : List Attempt → Option (ℚ × ℚ) × Nat
  | [] => (none, 0)
  | a :: rest =>
    if a.navRaises then
      if rest.isEmpty then (none, 1)
      else
        let r := analyze_wallet_scanner min_winrate min_pnl rest
        (r.1, r.2 + 1)
    else if wait_for_data a.render = false then
      if rest.isEmpty then (none, 1)
      else
        let r := analyze_wallet_scanner min_winrate min_pnl rest
        (r.1, r.2 + 1)
    else
      match a.winrate, a.realizedPnl with
      | some wr, some pnl =>
        if min_winrate ≤ wr ∧ min_pnl ≤ pnl then (some (wr, pnl), 1) else (none, 1)
      | _, _ =>
        if rest.isEmpty then (none, 1)
        else
          let r := analyze_wallet_scanner min_winrate min_pnl rest
          (r.1, r.2 + 1)

/-- The outcome dict of `PageWorker.analyze_wallet` (analyzer): a record
with status `passed` or `failed_criteria`, both carrying the extracted
values. -/
inductive AnalyzeOutcome where
  | passed (wr pnl : ℚ) : AnalyzeOutcome
  | failedCriteria (wr pnl : ℚ) : AnalyzeOutcome
deriving DecidableEq

/-- `PageWorker.analyze_wallet` (analyzer, lines 76-159).  Navigation errors
and failed extractions retry while attempts remain; a failed wait returns
`None` immediately with no retry (line 96); successful extraction is
classified and returned with the extracted values either way. -/
def analyze_wallet_analyzer (min_winrate min_pnl : ℚ) :
    List Attempt → Option AnalyzeOutcome × Nat
  | [] => (none, 0)
  | a :: rest =>
    if a.navRaises then
      if rest.isEmpty then (none, 1)
      else
        let r := analyze_wallet_analyzer min_winrate min_pnl rest
        (r.1, r.2 + 1)
    else if wait_for_data a.render = false then
      (none, 1)
    else
      match a.winrate, a.realizedPnl with
      | some wr, some pnl =>
        (some (if min_winrate ≤ wr ∧ min_pnl ≤ pnl then .passed wr pnl
          else .failedCriteria wr pnl), 1)
      | _, _ =>
        if rest.isEmpty then (none, 1)
        else
          let r := analyze_wallet_analyzer min_winrate min_pnl rest
          (r.1, r.2 + 1)

/-- Claim C2: for every wallet whose winRate and realizedPnl were both
successfully extracted, the classification is Passed iff
`winRate ≥ minWinRate ∧ realizedPnl ≥ minRealizedPnl` (else FailedCriteria),
in both variants, and a wallet sitting exactly on both thresholds is
classified Passed (inclusive bound). -/
theorem C2_threshold_classification (minW minP wr pnl : ℚ) :
    (analyze_wallet_analyzer minW minP [⟨false, .statsAppeared, some wr, some pnl⟩]).1
      = some (if minW ≤ wr ∧ minP ≤ pnl then .passed wr pnl else .failedCriteria wr pnl)
    ∧ ((analyze_wallet_analyzer minW minP [⟨false, .statsAppeared, some wr, some pnl⟩]).1
        = some (.passed wr pnl) ↔ (minW ≤ wr ∧ minP ≤ pnl))
    ∧ ((analyze_wallet_scanner minW minP [⟨false, .statsAppeared, some wr, some pnl⟩]).1
        = some (wr, pnl) ↔ (minW ≤ wr ∧ minP ≤ pnl))
    ∧ (analyze_wallet_analyzer minW minP [⟨false, .statsAppeared, some minW, some minP⟩]).1
      = some (.passed minW minP) := by
  refine ⟨?_, ?_, ?_, ?_⟩
  · simp [analyze_wallet_analyzer, wait_for_data]
  · by_cases h : minW ≤ wr ∧ minP ≤ pnl <;>
      simp [analyze_wallet_analyzer, wait_for_data, h]
  · by_cases h : minW ≤ wr ∧ minP ≤ pnl <;>
      simp [analyze_wallet_scanner, wait_for_data, h]
  · simp [analyze_wallet_analyzer, wait_for_data, le_refl]

/-- Claim C3 (code bug): `_wait_for_data_with_timeout` returns the same bare
`False` for an authoritative no-data marker as for a plain render timeout,
contradicting its own inline comments ("Valid no-data response, don't
retry" / "Timeout without data, should retry").  Consequently the scanner
retries the no-data case and consumes all 3 attempts instead of returning a
no-data outcome on the first attempt, and the analyzer returns after the
first attempt even for a plain timeout that the claim (and the comments)
say should be retried. -/
theorem C3_no_data_marker_collapsed :
    wait_for_data .timedOutMarker = wait_for_data .timedOutNoMarker
    ∧ analyze_wallet_scanner 70 100 (List.replicate 3 ⟨false, .timedOutMarker, none, none⟩)
        = (none, 3)
    ∧ analyze_wallet_analyzer 70 100 (List.replicate 3 ⟨false, .timedOutNoMarker, none, none⟩)
        = (none, 1) := by
  refine ⟨rfl, ?_, ?_⟩ <;> decide

/-- Claim C9, counterexample: the scanner variant, given a wallet whose
metrics are successfully extracted (winRate 60, realizedPnl 150) but which
fails the win-rate threshold 70, returns a bare `None` carrying no extracted
values instead of a FailedCriteria result with the values. -/
theorem C9_counterexample :
    (analyze_wallet_scanner 70 100 [⟨false, .statsAppeared, some 60, some 150⟩]).1 = none
    ∧ (60 : ℚ) < 70 := by
  constructor
  · decide
  · decide

/-- Claim C9 amended: in the analyzer variant, a wallet with successfully
extracted metrics that fails the thresholds yields a FailedCriteria outcome
carrying the extracted winRate and realizedPnl; in the scanner variant the
same wallet yields an empty result (`None`) carrying no values. -/
theorem C9_failed_criteria_carries_values (minW minP wr pnl : ℚ) :
    (analyze_wallet_analyzer minW minP [⟨false, .statsAppeared, some wr, some pnl⟩]).1
      = some (if minW ≤ wr ∧ minP ≤ pnl then .passed wr pnl else .failedCriteria wr pnl)
    ∧ (analyze_wallet_scanner minW minP [⟨false, .statsAppeared, some wr, some pnl⟩]).1
      = (if minW ≤ wr ∧ minP ≤ pnl then some (wr, pnl) else none) := by
  constructor
  · simp [analyze_wallet_analyzer, wait_for_data]
  · by_cases h : minW ≤ wr ∧ minP ≤ pnl <;>
      simp [analyze_wallet_scanner, wait_for_data, h]

/-! ## Worker loops, scan ledger and result aggregation

Each worker iteration is modelled as one atomic step on the shared state
(the two `asyncio.Lock`s make the check-and-insert and the result append
atomic); an arbitrary interleaving of the workers is an arbitrary order in
which the distributed wallets are processed. -/

/-- Events emitted by a worker iteration, in source statement order. -/
inductive Ev (α : Type*) where
  | claimW (w : α) : Ev α
  | record (w : α) : Ev α
  | evalW (w : α) : Ev α
  | appendRes (w : α) : Ev α
  | skipW (w : α) : Ev α
deriving DecidableEq

/-- Shared state of `PlaywrightWalletScanner`: the in-memory scanned set,
the ledger file (membership view of `scanned_wallets.txt`), the in-memory
results, the results file on disk, and the counters. -/
structure ScannerState (α : Type*) where
  scanned : Finset α
  ledger : Finset α
  results : List (α × ℚ × ℚ)
  disk : List (α × ℚ × ℚ)
  processed : Nat
  passed : Nat
  skipped : Nat

/-- One iteration of `PlaywrightWalletScanner.page_worker` (lines 326-357)
for wallet `w`: atomically skip-or-claim against the shared scanned set
(lines 330-334), record the claimed wallet in the ledger
(`save_scanned_wallet`, lines 337-338), analyze it (line 341, attempt
inputs `attempts w`), bump the processed counter and append a passing
result (lines 344-351). -/
def pageWorkerStep (min_winrate min_pnl : ℚ) (attempts : α → List Attempt)
    (s : ScannerState α) (w : α) : ScannerState α × List (Ev α) :=
  if w ∈ s.scanned then
    ({ s with skipped := s.skipped + 1 }, [Ev.skipW w])
  else
    let s1 : ScannerState α :=
      { s with scanned := insert w s.scanned, ledger := insert w s.ledger }
    match (analyze_wallet_scanner min_winrate min_pnl (attempts w)).1 with
    | some r =>
      ({ s1 with
          processed := s1.processed + 1
          passed := s1.passed + 1
          results := s1.results ++ [(w, r)] },
        [Ev.claimW w, Ev.record w, Ev.evalW w, Ev.appendRes w])
    | none =>
      ({ s1 with processed := s1.processed + 1 },
        [Ev.claimW w, Ev.record w, Ev.evalW w])

/-- The scanner's concurrent workers, processing the distributed wallets in
interleaving order `order`. -/
def pageWorkerRun (min_winrate min_pnl : ℚ) (attempts : α → List Attempt)
    (s : ScannerState α) : List α → ScannerState α × List (Ev α)
  | [] => (s, [])
  | w :: rest =>
    let st := pageWorkerStep min_winrate min_pnl attempts s w
    let r := pageWorkerRun min_winrate min_pnl attempts st.1 rest
    (r.1, st.2 ++ r.2)

/-- `PlaywrightWalletScanner.save_results` (lines 448-466): nothing is
written when the run produced no results; otherwise the existing file
contents are merged with the run's results and the file rewritten. -/
def scanner_save_results (disk results : List (α × ℚ × ℚ)) : List (α × ℚ × ℚ) :=
  if results.isEmpty then disk else disk ++ results

/-- `PlaywrightWalletScanner.run` (lines 363-446) reduced to its state
effects: the scanned set starts as the union of the wallets of the existing
results file (`E`) and the tracked ledger (`T`, lines 376-385); wallets
already scanned are filtered out (line 388); when nothing remains the run
returns immediately (lines 391-393); otherwise the workers process the
remaining wallets in interleaving order `order` and `save_results` runs at
the end (line 443). -/
def scannerRun (E T : Finset α) (disk0 : List (α × ℚ × ℚ)) (W : List α)
    (order : List α) (min_winrate min_pnl : ℚ) (attempts : α → List Attempt) :
    ScannerState α × List (Ev α) :=
  let scanned0 := E ∪ T
  let unscanned := W.filter (fun w => decide (w ∉ scanned0))
  let init : ScannerState α := ⟨scanned0, T, [], disk0, 0, 0, 0⟩
  if unscanned.isEmpty then (init, [])
  else
    let r := pageWorkerRun min_winrate min_pnl attempts init order
    ({ r.1 with disk := scanner_save_results r.1.disk r.1.results }, r.2)

/-- Shared state of `PlaywrightMultiPageAnalyzer`. -/
structure AnalyzerState (α : Type*) where
  scannedSet : Finset α
  ledger : Finset α
  results : List (α × ℚ × ℚ)
  disk : List (α × ℚ × ℚ)
  processed : Nat
  passed : Nat

/-- One iteration of `PlaywrightMultiPageAnalyzer._page_worker_task`
(lines 372-428) for wallet `w`: analyze first (line 381), then record the
wallet in the ledger and the in-memory scanned set (lines 384-386), bump
the processed counter (line 389), and on a passed outcome append the result
and immediately rewrite the results file with the run's results
(lines 391-398, `_save_results` lines 430-438). -/
def analyzerWorkerStep (min_winrate min_pnl : ℚ) (attempts : α → List Attempt)
    (s : AnalyzerState α) (w : α) : AnalyzerState α × List (Ev α) :=
  let result := (analyze_wallet_analyzer min_winrate min_pnl (attempts w)).1
  let s1 : AnalyzerState α :=
    { s with
        ledger := insert w s.ledger
        scannedSet := insert w s.scannedSet
        processed := s.processed + 1 }
  match result with
  | some (.passed wr pnl) =>
    let res := s1.results ++ [(w, wr, pnl)]
    ({ s1 with
        passed := s1.passed + 1
        results := res
        disk := res },
      [Ev.evalW w, Ev.record w, Ev.appendRes w])
  | _ => (s1, [Ev.evalW w, Ev.record w])

/-- The analyzer's concurrent workers in interleaving order `order`. -/
def analyzerWorkerRun (min_winrate min_pnl : ℚ) (attempts : α → List Attempt)
    (s : AnalyzerState α) : List α → AnalyzerState α × List (Ev α)
  | [] => (s, [])
  | w :: rest =>
    let st := analyzerWorkerStep min_winrate min_pnl attempts s w
    let r := analyzerWorkerRun min_winrate min_pnl attempts st.1 rest
    (r.1, st.2 ++ r.2)

/-- `PlaywrightMultiPageAnalyzer.run` (lines 440-507) reduced to its state
effects: wallets already in the ledger are filtered out
(`_load_unscanned_wallets`, lines 335-349); when nothing remains the run
returns immediately with zero scanned (lines 452-459); otherwise the
workers process the remainder in interleaving order `order` and
`_save_results` rewrites the results file once more at the end (line
488). -/
def analyzerRun (T : Finset α) (disk0 : List (α × ℚ × ℚ)) (W order : List α)
    (min_winrate min_pnl : ℚ) (attempts : α → List Attempt) :
    AnalyzerState α × List (Ev α) :=
  let unscanned := W.filter (fun w => decide (w ∉ T))
  let init : AnalyzerState α := ⟨T, T, [], disk0, 0, 0⟩
  if unscanned.isEmpty then (init, [])
  else
    let r := analyzerWorkerRun min_winrate min_pnl attempts init order
    ({ r.1 with disk := r.1.results }, r.2)

theorem pageWorkerStep_ledger_mono (mw mp : ℚ) (att : α → List Attempt)
    (s : ScannerState α) (w : α) :
    s.ledger ⊆ (pageWorkerStep mw mp att s w).1.ledger := by
  unfold pageWorkerStep
  by_cases hw : w ∈ s.scanned
  · simp [hw]
  · cases h : (analyze_wallet_scanner mw mp (att w)).1 <;>
      simp [hw, h, Finset.subset_insert]

theorem pageWorkerStep_self_scanned (mw mp : ℚ) (att : α → List Attempt)
    (s : ScannerState α) (w : α) :
    w ∈ (pageWorkerStep mw mp att s w).1.scanned := by
  unfold pageWorkerStep
  by_cases hw : w ∈ s.scanned
  · simpa [hw] using hw
  · cases h : (analyze_wallet_scanner mw mp (att w)).1 <;>
      simp [hw, h, Finset.mem_insert_self]

theorem pageWorkerStep_scanned_mono (mw mp : ℚ) (att : α → List Attempt)
    (s : ScannerState α) (w : α) :
    s.scanned ⊆ (pageWorkerStep mw mp att s w).1.scanned := by
  unfold pageWorkerStep
  by_cases hw : w ∈ s.scanned
  · simp [hw]
  · cases h : (analyze_wallet_scanner mw mp (att w)).1 <;>
      simp [hw, h, Finset.subset_insert]

theorem pageWorkerStep_scanned_sub (mw mp : ℚ) (att : α → List Attempt)
    (s : ScannerState α) (w : α) :
    (pageWorkerStep mw mp att s w).1.scanned
      ⊆ s.scanned ∪ (pageWorkerStep mw mp att s w).1.ledger := by
  unfold pageWorkerStep
  by_cases hw : w ∈ s.scanned
  · simp [hw]
  · cases h : (analyze_wallet_scanner mw mp (att w)).1 <;>
      · simp only [hw, if_false, h]
        intro x hx
        rcases Finset.mem_insert.mp hx with hx | hx
        · subst hx
          exact Finset.mem_union_right _ (Finset.mem_insert_self _ _)
        · exact Finset.mem_union_left _ hx

theorem pageWorkerRun_cons (mw mp : ℚ) (att : α → List Attempt)
    (s : ScannerState α) (w : α) (rest : List α) :
    pageWorkerRun mw mp att s (w :: rest)
      = ((pageWorkerRun mw mp att (pageWorkerStep mw mp att s w).1 rest).1,
        (pageWorkerStep mw mp att s w).2
          ++ (pageWorkerRun mw mp att (pageWorkerStep mw mp att s w).1 rest).2) := rfl

theorem pageWorkerRun_ledger_mono (mw mp : ℚ) (att : α → List Attempt) :
    ∀ (order : List α) (s : ScannerState α),
      s.ledger ⊆ (pageWorkerRun mw mp att s order).1.ledger := by
  intro order
  induction order with
  | nil => intro s; exact Finset.Subset.refl _
  | cons w rest ih =>
    intro s
    rw [pageWorkerRun_cons]
    exact (pageWorkerStep_ledger_mono mw mp att s w).trans (ih _)

theorem pageWorkerRun_scanned_mono (mw mp : ℚ) (att : α → List Attempt) :
    ∀ (order : List α) (s : ScannerState α),
      s.scanned ⊆ (pageWorkerRun mw mp att s order).1.scanned := by
  intro order
  induction order with
  | nil => intro s; exact Finset.Subset.refl _
  | cons w rest ih =>
    intro s
    rw [pageWorkerRun_cons]
    exact (pageWorkerStep_scanned_mono mw mp att s w).trans (ih _)

theorem pageWorkerRun_mem_scanned (mw mp : ℚ) (att : α → List Attempt) :
    ∀ (order : List α) (s : ScannerState α) (w : α), w ∈ order →
      w ∈ (pageWorkerRun mw mp att s order).1.scanned := by
  intro order
  induction order with
  | nil => intro s w hw; simp at hw
  | cons x rest ih =>
    intro s w hw
    rw [pageWorkerRun_cons]
    rcases List.mem_cons.mp hw with hw | hw
    · subst hw
      exact pageWorkerRun_scanned_mono mw mp att rest _
        (pageWorkerStep_self_scanned mw mp att s w)
    · exact ih _ w hw

theorem pageWorkerRun_scanned_sub (mw mp : ℚ) (att : α → List Attempt) :
    ∀ (order : List α) (s : ScannerState α),
      (pageWorkerRun mw mp att s order).1.scanned
        ⊆ s.scanned ∪ (pageWorkerRun mw mp att s order).1.ledger := by
  intro order
  induction order with
  | nil => intro s; exact Finset.subset_union_left
  | cons w rest ih =>
    intro s
    rw [pageWorkerRun_cons]
    intro x hx
    rcases Finset.mem_union.mp (ih _ hx) with hx2 | hx2
    · rcases Finset.mem_union.mp (pageWorkerStep_scanned_sub mw mp att s w hx2) with hx3 | hx3
      · exact Finset.mem_union_left _ hx3
      · exact Finset.mem_union_right _ (pageWorkerRun_ledger_mono mw mp att rest _ hx3)
    · exact Finset.mem_union_right _ hx2

theorem analyzerWorkerStep_ledger (mw mp : ℚ) (att : α → List Attempt)
    (s : AnalyzerState α) (w : α) :
    (analyzerWorkerStep mw mp att s w).1.ledger = insert w s.ledger := by
  unfold analyzerWorkerStep
  rcases h : (analyze_wallet_analyzer mw mp (att w)).1 with _ | o
  · simp [h]
  · cases o <;> simp [h]

theorem analyzerWorkerRun_cons (mw mp : ℚ) (att : α → List Attempt)
    (s : AnalyzerState α) (w : α) (rest : List α) :
    analyzerWorkerRun mw mp att s (w :: rest)
      = ((analyzerWorkerRun mw mp att (analyzerWorkerStep mw mp att s w).1 rest).1,
        (analyzerWorkerStep mw mp att s w).2
          ++ (analyzerWorkerRun mw mp att (analyzerWorkerStep mw mp att s w).1 rest).2) := rfl

theorem analyzerWorkerRun_ledger_mono (mw mp : ℚ) (att : α → List Attempt) :
    ∀ (order : List α) (s : AnalyzerState α),
      s.ledger ⊆ (analyzerWorkerRun mw mp att s order).1.ledger := by
  intro order
  induction order with
  | nil => intro s; exact Finset.Subset.refl _
  | cons w rest ih =>
    intro s
    rw [analyzerWorkerRun_cons]
    refine Finset.Subset.trans ?_ (ih _)
    rw [analyzerWorkerStep_ledger]
    exact Finset.subset_insert _ _

theorem analyzerWorkerRun_mem_ledger (mw mp : ℚ) (att : α → List Attempt) :
    ∀ (order : List α) (s : AnalyzerState α) (w : α), w ∈ order →
      w ∈ (analyzerWorkerRun mw mp att s order).1.ledger := by
  intro order
  induction order with
  | nil => intro s w hw; simp at hw
  | cons x rest ih =>
    intro s w hw
    rw [analyzerWorkerRun_cons]
    rcases List.mem_cons.mp hw with hw | hw
    · subst hw
      apply analyzerWorkerRun_ledger_mono mw mp att rest _
      rw [analyzerWorkerStep_ledger]
      exact Finset.mem_insert_self _ _
    · exact ih _ w hw

theorem scannerRun_covers (E T : Finset α) (d0 : List (α × ℚ × ℚ)) (W order : List α)
    (mw mp : ℚ) (att : α → List Attempt)
    (horder : order.Perm (W.filter (fun w => decide (w ∉ E ∪ T)))) :
    ∀ w ∈ W, w ∈ E ∪ (scannerRun E T d0 W order mw mp att).1.ledger := by
  intro w hw
  unfold scannerRun
  cases hempty : (W.filter (fun w => decide (w ∉ E ∪ T))).isEmpty with
  | true =>
    have hnil : W.filter (fun w => decide (w ∉ E ∪ T)) = [] := by
      simpa [List.isEmpty_iff] using hempty
    have hmem : w ∈ E ∪ T := by
      by_contra hno
      have hwf : w ∈ W.filter (fun w => decide (w ∉ E ∪ T)) :=
        List.mem_filter.mpr ⟨hw, by simpa using hno⟩
      rw [hnil] at hwf
      exact absurd hwf (List.not_mem_nil _)
    simp only [hempty]
    rcases Finset.mem_union.mp hmem with h | h
    · exact Finset.mem_union_left _ h
    · exact Finset.mem_union_right _ h
  | false =>
    simp only [hempty]
    by_cases hmem : w ∈ E ∪ T
    · rcases Finset.mem_union.mp hmem with h | h
      · exact Finset.mem_union_left _ h
      · exact Finset.mem_union_right _
          (pageWorkerRun_ledger_mono mw mp att order ⟨E ∪ T, T, [], d0, 0, 0, 0⟩ h)
    · have hord : w ∈ order :=
        horder.mem_iff.mpr (List.mem_filter.mpr ⟨hw, by simpa using hmem⟩)
      have hsc := pageWorkerRun_mem_scanned mw mp att order ⟨E ∪ T, T, [], d0, 0, 0, 0⟩ w hord
      rcases Finset.mem_union.mp
          (pageWorkerRun_scanned_sub mw mp att order ⟨E ∪ T, T, [], d0, 0, 0, 0⟩ hsc) with h | h
      · exact absurd h hmem
      · exact Finset.mem_union_right _ h

theorem scannerRun_processed_zero (E2 T2 : Finset α) (d2 : List (α × ℚ × ℚ))
    (W order2 : List α) (mw2 mp2 : ℚ) (att2 : α → List Attempt)
    (hcov : ∀ w ∈ W, w ∈ E2 ∪ T2) :
    (scannerRun E2 T2 d2 W order2 mw2 mp2 att2).1.processed = 0 := by
  have hnil : W.filter (fun w => decide (w ∉ E2 ∪ T2)) = [] := by
    apply List.filter_eq_nil_iff.mpr
    intro w hw
    have h2 := hcov w hw
    simp only [Finset.mem_union] at h2
    simp only [decide_eq_true_eq]
    tauto
  unfold scannerRun
  simp only [hnil, List.isEmpty_nil, if_true]

theorem analyzerRun_covers (T : Finset α) (d0 : List (α × ℚ × ℚ)) (W order : List α)
    (mw mp : ℚ) (att : α → List Attempt)
    (horder : order.Perm (W.filter (fun w => decide (w ∉ T)))) :
    ∀ w ∈ W, w ∈ (analyzerRun T d0 W order mw mp att).1.ledger := by
  intro w hw
  unfold analyzerRun
  cases hempty : (W.filter (fun w => decide (w ∉ T))).isEmpty with
  | true =>
    have hnil : W.filter (fun w => decide (w ∉ T)) = [] := by
      simpa [List.isEmpty_iff] using hempty
    have hmem : w ∈ T := by
      by_contra hno
      have hwf : w ∈ W.filter (fun w => decide (w ∉ T)) :=
        List.mem_filter.mpr ⟨hw, by simpa using hno⟩
      rw [hnil] at hwf
      exact absurd hwf (List.not_mem_nil _)
    simp only [hempty]
    exact hmem
  | false =>
    simp only [hempty]
    by_cases hmem : w ∈ T
    · exact analyzerWorkerRun_ledger_mono mw mp att order ⟨T, T, [], d0, 0, 0⟩ hmem
    · have hord : w ∈ order :=
        horder.mem_iff.mpr (List.mem_filter.mpr ⟨hw, by simpa using hmem⟩)
      exact analyzerWorkerRun_mem_ledger mw mp att order ⟨T, T, [], d0, 0, 0⟩ w hord

theorem analyzerRun_processed_zero (T2 : Finset α) (d2 : List (α × ℚ × ℚ))
    (W order2 : List α) (mw2 mp2 : ℚ) (att2 : α → List Attempt)
    (hcov : ∀ w ∈ W, w ∈ T2) :
    (analyzerRun T2 d2 W order2 mw2 mp2 att2).1.processed = 0 := by
  have hnil : W.filter (fun w => decide (w ∉ T2)) = [] := by
    apply List.filter_eq_nil_iff.mpr
    intro w hw
    simp only [decide_eq_true_eq, Decidable.not_not]
    exact hcov w hw
  unfold analyzerRun
  simp only [hnil, List.isEmpty_nil, if_true]

/-- Claim C5: running the engine to completion once and then a second time
on the same wallet list `W`, with the ledger carried over from the first run
(and, in the scanner variant, the results file only grown, `E ⊆ E2`),
processes zero wallets the second time: every wallet of `W` ends up in the
ledger or the pre-existing scanned set by the end of run one, so the second
run's filter leaves nothing and the run returns before any worker starts.
Holds for both variants, for any worker interleaving of the first run and
any per-wallet evaluation results. -/
theorem C5_second_run_processes_zero
    (E E2 T TA : Finset α) (d0 d1 d2 d3 : List (α × ℚ × ℚ))
    (W orderS orderS2 orderA orderA2 : List α)
    (mw mp mw2 mp2 mwa mpa mwa2 mpa2 : ℚ)
    (att att2 attA attA2 : α → List Attempt)
    (horderS : orderS.Perm (W.filter (fun w => decide (w ∉ E ∪ T))))
    (hE : E ⊆ E2)
    (horderA : orderA.Perm (W.filter (fun w => decide (w ∉ TA)))) :
    (scannerRun E2 (scannerRun E T d0 W orderS mw mp att).1.ledger d1 W orderS2
        mw2 mp2 att2).1.processed = 0
    ∧ (analyzerRun (analyzerRun TA d2 W orderA mwa mpa attA).1.ledger d3 W orderA2
        mwa2 mpa2 attA2).1.processed = 0 := by
  constructor
  · apply scannerRun_processed_zero
    intro w hw
    rcases Finset.mem_union.mp
        (scannerRun_covers E T d0 W orderS mw mp att horderS w hw) with h | h
    · exact Finset.mem_union_left _ (hE h)
    · exact Finset.mem_union_right _ h
  · apply analyzerRun_processed_zero
    intro w hw
    exact analyzerRun_covers TA d2 W orderA mwa mpa attA horderA w hw

/-- Witness for C5 at the concrete input `W = [0, 1]` with empty initial
state. -/
theorem C5_second_run_processes_zero_witness :
    (([0, 1] : List ℕ).Perm
        (([0, 1] : List ℕ).filter (fun w => decide (w ∉ (∅ ∪ ∅ : Finset ℕ))))
      ∧ (∅ : Finset ℕ) ⊆ (∅ : Finset ℕ)
      ∧ ([0, 1] : List ℕ).Perm
          (([0, 1] : List ℕ).filter (fun w => decide (w ∉ (∅ : Finset ℕ)))))
    ∧ ((scannerRun (∅ : Finset ℕ)
          (scannerRun ∅ ∅ [] [0, 1] [0, 1] 70 100 (fun _ => [])).1.ledger
          [] [0, 1] [] 70 100 (fun _ => [])).1.processed = 0
      ∧ (analyzerRun
          (analyzerRun (∅ : Finset ℕ) [] [0, 1] [0, 1] 70 100 (fun _ => [])).1.ledger
          [] [0, 1] [] 70 100 (fun _ => [])).1.processed = 0) :=
  ⟨⟨by decide, by decide, by decide⟩,
    C5_second_run_processes_zero ∅ ∅ ∅ ∅ [] [] [] [] [0, 1] [0, 1] [] [0, 1] []
      70 100 70 100 70 100 70 100
      (fun _ => []) (fun _ => []) (fun _ => []) (fun _ => [])
      (by decide) (by decide) (by decide)⟩

theorem analyzerWorkerRun_cons_fst (mw mp : ℚ) (att : α → List Attempt)
    (s : AnalyzerState α) (w : α) (rest : List α) :
    (analyzerWorkerRun mw mp att s (w :: rest)).1
      = (analyzerWorkerRun mw mp att (analyzerWorkerStep mw mp att s w).1 rest).1 := rfl

theorem analyzerWorkerStep_disk (mw mp : ℚ) (att : α → List Attempt)
    (s : AnalyzerState α) (w : α) :
    ((analyzerWorkerStep mw mp att s w).1.disk = (analyzerWorkerStep mw mp att s w).1.results)
    ∨ ((analyzerWorkerStep mw mp att s w).1.disk = s.disk
      ∧ (analyzerWorkerStep mw mp att s w).1.results = s.results) := by
  rcases h : (analyze_wallet_analyzer mw mp (att w)).1 with _ | o
  · right
    refine ⟨?_, ?_⟩ <;> simp [analyzerWorkerStep, h]
  · cases o with
    | passed wr pnl =>
      left
      simp [analyzerWorkerStep, h]
    | failedCriteria wr pnl =>
      right
      refine ⟨?_, ?_⟩ <;> simp [analyzerWorkerStep, h]

theorem analyzerWorkerStep_results (mw mp : ℚ) (att : α → List Attempt)
    (s : AnalyzerState α) (w : α) :
    ∃ t, (analyzerWorkerStep mw mp att s w).1.results = s.results ++ t := by
  rcases h : (analyze_wallet_analyzer mw mp (att w)).1 with _ | o
  · exact ⟨[], by simp only [analyzerWorkerStep, h]; simp⟩
  · cases o with
    | passed wr pnl =>
      exact ⟨[(w, wr, pnl)], by simp only [analyzerWorkerStep, h]⟩
    | failedCriteria wr pnl =>
      exact ⟨[], by simp only [analyzerWorkerStep, h]; simp⟩

theorem analyzerWorkerRun_disk (mw mp : ℚ) (att : α → List Attempt) :
    ∀ (order : List α) (s : AnalyzerState α),
      ((analyzerWorkerRun mw mp att s order).1.disk
        = (analyzerWorkerRun mw mp att s order).1.results)
      ∨ ((analyzerWorkerRun mw mp att s order).1.disk = s.disk
        ∧ (analyzerWorkerRun mw mp att s order).1.results = s.results) := by
  intro order
  induction order with
  | nil => intro s; right; exact ⟨rfl, rfl⟩
  | cons w rest ih =>
    intro s
    rw [analyzerWorkerRun_cons_fst]
    rcases ih (analyzerWorkerStep mw mp att s w).1 with h | ⟨h1, h2⟩
    · left; exact h
    · rcases analyzerWorkerStep_disk mw mp att s w with h3 | ⟨h3, h4⟩
      · left; rw [h1, h2, h3]
      · right; exact ⟨h1.trans h3, h2.trans h4⟩

theorem analyzerWorkerRun_results_mono (mw mp : ℚ) (att : α → List Attempt) :
    ∀ (order : List α) (s : AnalyzerState α),
      ∃ t, (analyzerWorkerRun mw mp att s order).1.results = s.results ++ t := by
  intro order
  induction order with
  | nil => intro s; exact ⟨[], by simp [analyzerWorkerRun]⟩
  | cons w rest ih =>
    intro s
    rcases analyzerWorkerStep_results mw mp att s w with ⟨t1, h1⟩
    rcases ih (analyzerWorkerStep mw mp att s w).1 with ⟨t2, h2⟩
    refine ⟨t1 ++ t2, ?_⟩
    rw [analyzerWorkerRun_cons_fst, h2, h1, List.append_assoc]

theorem pageWorkerStep_disk (mw mp : ℚ) (att : α → List Attempt)
    (s : ScannerState α) (w : α) :
    (pageWorkerStep mw mp att s w).1.disk = s.disk := by
  unfold pageWorkerStep
  by_cases hw : w ∈ s.scanned
  · simp [hw]
  · cases h : (analyze_wallet_scanner mw mp (att w)).1 <;> simp [hw, h]

theorem pageWorkerRun_disk (mw mp : ℚ) (att : α → List Attempt) :
    ∀ (order : List α) (s : ScannerState α),
      (pageWorkerRun mw mp att s order).1.disk = s.disk := by
  intro order
  induction order with
  | nil => intro s; rfl
  | cons w rest ih =>
    intro s
    rw [pageWorkerRun_cons]
    exact (ih _).trans (pageWorkerStep_disk mw mp att s w)

/-- Claim C4, counterexample: the analyzer with a prior on-disk result
`(99, 1, 2)` processes wallet `0`, which passes; the immediate checkpoint
rewrites the results file with only the current run's results, so the
previously recorded passing result `(99, 1, 2)` is no longer on disk after
the checkpoint — a crash now loses a passing result recorded in a prior
run, contrary to the claim. -/
theorem C4_counterexample :
    (analyzerRun (∅ : Finset ℕ) [(99, 1, 2)] [0] [0] 70 100
        (fun _ => [⟨false, .statsAppeared, some 80, some 200⟩])).1.disk = [(0, 80, 200)]
    ∧ ((99 : ℕ), (1 : ℚ), (2 : ℚ)) ∉ (analyzerRun (∅ : Finset ℕ) [(99, 1, 2)] [0] [0] 70 100
        (fun _ => [⟨false, .statsAppeared, some 80, some 200⟩])).1.disk := by
  constructor
  · decide
  · decide

/-- Claim C4 amended: in the analyzer variant each Passed outcome is
appended to the run's result set and immediately checkpointed — after any
sequence of worker steps the results file equals the run's result set,
unless no pass has been checkpointed yet (then file and result set are both
unchanged) — and the result set only grows, so a checkpoint never loses a
passing result recorded earlier in the same run; but a checkpoint holds only
the current run's results, not prior on-disk results.  In the scanner
variant the workers never write the results file; it is written once at the
end of the run, merging the prior file contents with the run's results. -/
theorem C4_checkpoint_behavior (mw mp : ℚ) (att : α → List Attempt)
    (s0 : AnalyzerState α) (order : List α) (mw' mp' : ℚ) (att' : α → List Attempt)
    (s0' : ScannerState α) (order' : List α) (d res : List (α × ℚ × ℚ)) :
    (((analyzerWorkerRun mw mp att s0 order).1.disk
        = (analyzerWorkerRun mw mp att s0 order).1.results)
      ∨ ((analyzerWorkerRun mw mp att s0 order).1.disk = s0.disk
        ∧ (analyzerWorkerRun mw mp att s0 order).1.results = s0.results))
    ∧ (∃ t, (analyzerWorkerRun mw mp att s0 order).1.results = s0.results ++ t)
    ∧ (pageWorkerRun mw' mp' att' s0' order').1.disk = s0'.disk
    ∧ scanner_save_results d res = (if res.isEmpty then d else d ++ res) :=
  ⟨analyzerWorkerRun_disk mw mp att order s0,
    analyzerWorkerRun_results_mono mw mp att order s0,
    pageWorkerRun_disk mw' mp' att' order' s0', rfl⟩

/-- `true` when the trace contains a ledger-write event for `w` and its
first occurrence precedes the first evaluation event for `w`. -/
def record_before_eval (w : α) (evs : List (Ev α)) : Bool :=
  decide (evs.findIdx (fun e => decide (e = Ev.record w))
    < evs.findIdx (fun e => decide (e = Ev.evalW w)))

/-- Claim C8, counterexample: in the analyzer variant the ledger write
happens after the evaluation — the worker-step trace for a processed wallet
is `[evalW, record, ...]`, so the ledger-write step does not precede the
evaluation step. -/
theorem C8_counterexample :
    (analyzerWorkerStep 70 100 (fun _ => [⟨false, .statsAppeared, some 80, some 200⟩])
        (⟨∅, ∅, [], [], 0, 0⟩ : AnalyzerState ℕ) 0).2
      = [Ev.evalW 0, Ev.record 0, Ev.appendRes 0]
    ∧ record_before_eval 0 ((analyzerWorkerStep 70 100
        (fun _ => [⟨false, .statsAppeared, some 80, some 200⟩])
        (⟨∅, ∅, [], [], 0, 0⟩ : AnalyzerState ℕ) 0).2) = false := by
  constructor
  · decide
  · decide

/-- Claim C8 amended: in the scanner variant the ledger write for a
processed (non-skipped) wallet happens immediately after the claim and
before the evaluation; in the analyzer variant it happens immediately after
the evaluation, once the outcome is known. -/
theorem C8_record_order (mw mp : ℚ) (att : α → List Attempt) (s : ScannerState α)
    (s' : AnalyzerState α) (w : α) (h : w ∉ s.scanned) :
    (∃ tail, (pageWorkerStep mw mp att s w).2
        = Ev.claimW w :: Ev.record w :: Ev.evalW w :: tail)
    ∧ (∃ tail, (analyzerWorkerStep mw mp att s' w).2
        = Ev.evalW w :: Ev.record w :: tail) := by
  constructor
  · unfold pageWorkerStep
    rw [if_neg h]
    cases hx : (analyze_wallet_scanner mw mp (att w)).1 with
    | some r => exact ⟨[Ev.appendRes w], rfl⟩
    | none => exact ⟨[], rfl⟩
  · rcases hx : (analyze_wallet_analyzer mw mp (att w)).1 with _ | o
    · exact ⟨[], by simp only [analyzerWorkerStep, hx]⟩
    · cases o with
      | passed wr pnl => exact ⟨[Ev.appendRes w], by simp only [analyzerWorkerStep, hx]⟩
      | failedCriteria wr pnl => exact ⟨[], by simp only [analyzerWorkerStep, hx]⟩

/-- Witness for the amended C8 at a concrete input. -/
theorem C8_record_order_witness :
    ((0 : ℕ) ∉ ((⟨∅, ∅, [], [], 0, 0, 0⟩ : ScannerState ℕ)).scanned
    ∧ ((∃ tail, (pageWorkerStep 70 100 (fun _ => [])
          (⟨∅, ∅, [], [], 0, 0, 0⟩ : ScannerState ℕ) 0).2
        = Ev.claimW 0 :: Ev.record 0 :: Ev.evalW 0 :: tail)
      ∧ (∃ tail, (analyzerWorkerStep 70 100 (fun _ => [])
          (⟨∅, ∅, [], [], 0, 0⟩ : AnalyzerState ℕ) 0).2
        = Ev.evalW 0 :: Ev.record 0 :: tail))) :=
  ⟨by decide,
    C8_record_order 70 100 (fun _ => []) (⟨∅, ∅, [], [], 0, 0, 0⟩ : ScannerState ℕ)
      (⟨∅, ∅, [], [], 0, 0⟩ : AnalyzerState ℕ) 0 (by decide)⟩

theorem pageWorkerRun_cons_snd (mw mp : ℚ) (att : α → List Attempt)
    (s : ScannerState α) (w : α) (rest : List α) :
    (pageWorkerRun mw mp att s (w :: rest)).2
      = (pageWorkerStep mw mp att s w).2
        ++ (pageWorkerRun mw mp att (pageWorkerStep mw mp att s w).1 rest).2 := rfl

theorem pageWorkerStep_evalW_count (mw mp : ℚ) (att : α → List Attempt)
    (s : ScannerState α) (x w : α) :
    (pageWorkerStep mw mp att s x).2.countP (fun e => decide (e = Ev.evalW w))
      = (if x ∈ s.scanned then 0 else if x = w then 1 else 0) := by
  unfold pageWorkerStep
  by_cases hx : x ∈ s.scanned
  · simp [hx, List.countP_cons]
  · cases h : (analyze_wallet_scanner mw mp (att x)).1 <;>
    · simp only [hx, if_false, h]
      by_cases hxw : x = w
      · subst hxw; simp [List.countP_cons]
      · simp [List.countP_cons, hxw]

theorem pageWorkerRun_evalW_count (mw mp : ℚ) (att : α → List Attempt) (w : α) :
    ∀ (order : List α) (s : ScannerState α),
      (pageWorkerRun mw mp att s order).2.countP (fun e => decide (e = Ev.evalW w))
        ≤ (if w ∈ s.scanned then 0 else 1) := by
  intro order
  induction order with
  | nil =>
    intro s
    show (List.countP _ []) ≤ _
    simp
  | cons x rest ih =>
    intro s
    rw [pageWorkerRun_cons_snd, List.countP_append, pageWorkerStep_evalW_count]
    have hrest := ih (pageWorkerStep mw mp att s x).1
    by_cases hx : x ∈ s.scanned
    · have hsc : (pageWorkerStep mw mp att s x).1.scanned = s.scanned := by
        unfold pageWorkerStep
        simp [hx]
      rw [hsc] at hrest
      simpa [hx] using hrest
    · have hsc : (pageWorkerStep mw mp att s x).1.scanned = insert x s.scanned := by
        unfold pageWorkerStep
        cases h : (analyze_wallet_scanner mw mp (att x)).1 <;> simp [hx, h]
      rw [hsc] at hrest
      by_cases hxw : x = w
      · subst hxw
        rw [if_pos (Finset.mem_insert_self _ _)] at hrest
        simp only [hx, if_false, if_pos rfl, if_true]
        omega
      · have hiff : (if w ∈ insert x s.scanned then (0 : ℕ) else 1)
            = (if w ∈ s.scanned then 0 else 1) := by
          by_cases hw : w ∈ s.scanned
          · rw [if_pos hw, if_pos (Finset.mem_insert_of_mem hw)]
          · have hwni : w ∉ insert x s.scanned := by
              rw [Finset.mem_insert]
              rintro (hh | hh)
              · exact hxw hh.symm
              · exact hw hh
            rw [if_neg hw, if_neg hwni]
        rw [hiff] at hrest
        simpa [hx, hxw] using hrest

/-- Claim C10: in the scanner variant a wallet is evaluated at most once per
run, even when the candidate list contains it more than once: the shared
scanned set is tested and inserted atomically per wallet, a wallet already
present is counted as skipped and emits only a skip event (no evaluation),
and the whole worker trace carries at most one evaluation event per wallet
(none when the wallet was already scanned before the run). -/
theorem C10_at_most_one_evaluation (mw mp : ℚ) (att : α → List Attempt)
    (s0 : ScannerState α) (order : List α) (w : α) :
    (pageWorkerRun mw mp att s0 order).2.countP (fun e => decide (e = Ev.evalW w))
      ≤ (if w ∈ s0.scanned then 0 else 1)
    ∧ (pageWorkerStep mw mp att s0 w).2.countP (fun e => decide (e = Ev.evalW w))
      = (if w ∈ s0.scanned then 0 else 1)
    ∧ (pageWorkerStep mw mp att s0 w).1.skipped
      = (if w ∈ s0.scanned then s0.skipped + 1 else s0.skipped)
    ∧ (pageWorkerStep mw mp att s0 w).2
      = (if w ∈ s0.scanned then [Ev.skipW w]
        else (pageWorkerStep mw mp att s0 w).2) := by
  refine ⟨pageWorkerRun_evalW_count mw mp att w order s0, ?_, ?_, ?_⟩
  · rw [pageWorkerStep_evalW_count]
    by_cases hw : w ∈ s0.scanned <;> simp [hw]
  · unfold pageWorkerStep
    by_cases hw : w ∈ s0.scanned
    · simp [hw]
    · cases h : (analyze_wallet_scanner mw mp (att w)).1 <;> simp [hw, h]
  · by_cases hw : w ∈ s0.scanned
    · rw [if_pos hw]
      unfold pageWorkerStep
      simp [hw]
    · rw [if_neg hw]

end WalletEngine
